import Mathlib

/-!
Verification of the base-name extraction and statistics engine of the
data-analyzer dashboard (src/app.py, with the duplicate normalizer in
src/app_fixed.py).

Shallow embedding conventions:
  * A piece of text (a cell value, a column name, a user input) is a list of
    character code points, `Str := List Nat`.  The helper `lit` converts a Lean
    string literal to this representation so that concrete test cases can be
    written readably.
  * Python `str.lower` / `str.upper` are modelled on the ASCII range (the
    program only ever compares ASCII literals); `str.strip` removes the ASCII
    whitespace characters.
  * The pandas expression `series.str.contains(pat)` for the literal patterns
    appearing in the program (none contains a regex metacharacter) is substring
    containment, i.e. `List.IsInfix` on code-point lists.
  * A data frame is a column-name list plus a list of rows; a row is an
    association list from column name to (already stringified) cell text.
-/

/-- Text as a list of character code points. -/
abbrev Str := List Nat

/-- Convert a Lean string literal to the `Str` representation. -/
def lit (s : String) : Str := s.data.map Char.toNat

/-- ASCII lower-casing of one code point (Python `str.lower` on ASCII text). -/
def chLower (n : Nat) : Nat := if 65 ≤ n ∧ n ≤ 90 then n + 32 else n

/-- ASCII upper-casing of one code point (Python `str.upper` on ASCII text). -/
def chUpper (n : Nat) : Nat := if 97 ≤ n ∧ n ≤ 122 then n - 32 else n

/-- Python `str.lower` on a text. -/
def strLower (s : Str) : Str := s.map chLower

/-- Python `str.upper` on a text. -/
def strUpper (s : Str) : Str := s.map chUpper

/-- ASCII whitespace, the characters removed by Python `str.strip`. -/
def isSpaceCh (n : Nat) : Bool :=
  n = 32 || n = 9 || n = 10 || n = 11 || n = 12 || n = 13

/-- Remove leading whitespace. -/
def trimL (s : Str) : Str := s.dropWhile isSpaceCh

/-- Remove trailing whitespace. -/
def trimR (s : Str) : Str := (s.reverse.dropWhile isSpaceCh).reverse

/-- Python `str.strip`: remove surrounding whitespace. -/
def trim (s : Str) : Str := trimR (trimL s)

/-- The delimiter literal `-US-` used by `extract_base_name`. -/
def sepUS : Str := lit "-US-"

/-- Python `base_str.split("-US-")`: greedy left-to-right split on the first
occurrence of the delimiter, exactly as `str.split` with a non-empty
separator.  The first pattern matches the code points of `-US-`
(45, 85, 83, 45).  Always returns at least one part. -/
def splitUS : Str → List Str
  | 45 :: 85 :: 83 :: 45 :: rest => [] :: splitUS rest
  | c :: rest =>
    match splitUS rest with
    | [] => [[c]]
    | p :: ps => (c :: p) :: ps
  | [] => [[]]

/-- The function `extract_base_name` of src/app.py lines 88-103 (identical in
src/app_fixed.py lines 68-83).  The falsiness/placeholder check is performed on
the raw argument, before the trim/upper-case normalization. -/
def extract_base_name (base_value : Str) : Option Str :=
  if base_value = [] ∨ base_value = lit "NAN" ∨ base_value = lit "NONE" then
    none
  else if sepUS <:+: strUpper (trim base_value) then
    if (splitUS (strUpper (trim base_value))).length > 1 then
      if trim ((splitUS (strUpper (trim base_value))).getLastD []) = [] then none
      else some (trim ((splitUS (strUpper (trim base_value))).getLastD []))
    else if strUpper (trim base_value) = [] then none
    else some (strUpper (trim base_value))
  else if strUpper (trim base_value) = [] then none
  else some (strUpper (trim base_value))

/-! ## Data frames, rows, and cells -/

/-- A row: association list from column name to (stringified) cell text.
Cell access `row[col]` is modelled by `getCol`; `astype(str)` is implicit
because cells are already text. -/
abbrev Row := List (Str × Str)

/-- A data frame: named columns plus a list of rows. -/
structure DataFrame where
  cols : List Str
  rows : List Row
deriving DecidableEq

/-- Read the cell of column `c` in row `r` (the program only reads columns it
has verified to be present). -/
def getCol (r : Row) (c : Str) : Str :=
  match r.find? (fun p => p.1 = c) with
  | some p => p.2
  | none => []

/-- The statistics snapshot returned by `calculate_statistics` and
`calculate_base_statistics`: counts of the three status buckets plus the total
row count. -/
structure Stats where
  approved : Nat
  not_approved : Nat
  not_in_time : Nat
  total : Nat
deriving DecidableEq

/-- The all-zero snapshot. -/
def zeroStats : Stats := ⟨0, 0, 0, 0⟩

/-- Status predicate `approved` (src/app.py line 115): the lower-cased status
text contains "approved" and does not contain "not approved". -/
def approvedPred (cell : Str) : Bool :=
  lit "approved" <:+: strLower cell ∧ ¬ (lit "not approved" <:+: strLower cell)

/-- Status predicate `not_approved` (src/app.py line 117): the lower-cased
status text contains "not approved". -/
def notApprovedPred (cell : Str) : Bool :=
  lit "not approved" <:+: strLower cell

/-- Status predicate `not_in_time` (src/app.py line 118): the lower-cased
status text contains "not in time". -/
def notInTimePred (cell : Str) : Bool :=
  lit "not in time" <:+: strLower cell

/-- The function `calculate_statistics` of src/app.py lines 106-128: the
all-zero snapshot for an empty frame or a missing status column, otherwise the
three independent substring counts over the lower-cased status cells. -/
def calculate_statistics (data : DataFrame) (checker_col : Str) : Stats :=
  if data.rows.length = 0 then zeroStats
  else if checker_col ∈ data.cols then
    { approved := ((data.rows.map (fun r => getCol r checker_col)).filter
        approvedPred).length
      not_approved := ((data.rows.map (fun r => getCol r checker_col)).filter
        notApprovedPred).length
      not_in_time := ((data.rows.map (fun r => getCol r checker_col)).filter
        notInTimePred).length
      total := data.rows.length }
  else zeroStats

/-- Percentage derivation used on the Analytics, Combine and Bases pages
(e.g. src/app.py lines 1001-1003): `count / total * 100` guarded to `0` when
`total` is zero. -/
def pct (count total : Nat) : Rat :=
  if 0 < total then (count : Rat) / (total : Rat) * 100 else 0

/-! ## Base-name mapping built at load time -/

/-- Normalization applied to a raw Base Column cell before any grouping or
comparison: `astype(str).str.strip().str.upper()`. -/
def normCell (v : Str) : Str := strUpper (trim v)

/-- The exclusion test of the load-time list comprehension
`[b for b in base_values.unique() if b and b != 'NAN' and b != 'NONE']`. -/
def excludedRaw (b : Str) : Bool := b = [] ∨ b = lit "NAN" ∨ b = lit "NONE"

/-- pandas `Series.unique()`: distinct values in first-seen order. -/
def uniqueKeep (l : List Str) : List Str :=
  l.foldl (fun acc v => if v ∈ acc then acc else acc ++ [v]) []

/-- The Base-Name Mapping: canonical base name to ordered list of raw member
values, as a key-ordered association list (a Python dict preserves insertion
order). -/
abbrev Mapping := List (Str × List Str)

/-- Python `mapping[k].append(v)`, creating `mapping[k] = [v]` on first use
(src/app.py lines 341-344). -/
def mapAppend (m : Mapping) (k : Str) (v : Str) : Mapping :=
  match m with
  | [] => [(k, [v])]
  | (k', vs) :: rest =>
    if k' = k then (k', vs ++ [v]) :: rest else (k', vs) :: mapAppend rest k v

/-- Python `mapping.get(k, [])`. -/
def mapGet (m : Mapping) (k : Str) : List Str :=
  match m.find? (fun p => p.1 = k) with
  | some p => p.2
  | none => []

/-- The non-excluded distinct normalized Base Column values, in first-seen
order (`unique_base_values` of src/app.py line 335). -/
def uniqueBaseValues (data : DataFrame) (base_col : Str) : List Str :=
  (uniqueKeep (data.rows.map (fun r => normCell (getCol r base_col)))).filter
    (fun b => ¬ excludedRaw b)

/-- The load-time construction of `base_name_mapping` (src/app.py lines
334-347): scan the distinct non-excluded normalized base values in first-seen
order and append each to the member list of its extracted base name. -/
def build_base_name_mapping (data : DataFrame) (base_col : Str) : Mapping :=
  (uniqueBaseValues data base_col).foldl
    (fun m bv =>
      match extract_base_name bv with
      | some name => mapAppend m name bv
      | none => m)
    []

/-- The function `calculate_base_statistics` of src/app.py lines 130-164:
resolve the group's raw members from the mapping, filter the frame to the rows
whose normalized Base Column value is a member, and count the three status
buckets over that subset.  `base_col` is optional since the caller passes the
possibly-unresolved base column. -/
def calculate_base_statistics (data : DataFrame) (base_name : Str)
    (base_name_mapping : Mapping) (base_col : Option Str)
    (checker_col : Str) : Stats :=
  if data.rows.length = 0 then zeroStats
  else
    match base_col with
    | none => zeroStats
    | some bc =>
      if checker_col ∈ data.cols then
        if mapGet base_name_mapping base_name = [] then zeroStats
        else if (data.rows.filter
            (fun r => normCell (getCol r bc) ∈
              mapGet base_name_mapping base_name)).length = 0 then zeroStats
        else
          { approved := (((data.rows.filter
              (fun r => normCell (getCol r bc) ∈
                mapGet base_name_mapping base_name)).map
              (fun r => getCol r checker_col)).filter approvedPred).length
            not_approved := (((data.rows.filter
              (fun r => normCell (getCol r bc) ∈
                mapGet base_name_mapping base_name)).map
              (fun r => getCol r checker_col)).filter notApprovedPred).length
            not_in_time := (((data.rows.filter
              (fun r => normCell (getCol r bc) ∈
                mapGet base_name_mapping base_name)).map
              (fun r => getCol r checker_col)).filter notInTimePred).length
            total := (data.rows.filter
              (fun r => normCell (getCol r bc) ∈
                mapGet base_name_mapping base_name)).length }
      else zeroStats

/-! ## Column resolution -/

/-- The alias set for the Base Column. -/
def baseAliases : List Str :=
  [lit "base", lit "bases", lit "base name", lit "basename"]

/-- Whether a column name matches the Base Column aliases, case-insensitively
(`col.lower() in ['base', 'bases', 'base name', 'basename']`). -/
def matchesBase (c : Str) : Bool := strLower c ∈ baseAliases

/-- Load-time base-column resolution (src/app.py lines 328-332): the loop
has a `break`, so the first matching column wins. -/
def findBaseColLoad (cols : List Str) : Option Str := cols.find? matchesBase

/-- Main-flow base-column resolution (src/app.py lines 396-400): the loop has
no `break`, so each match overwrites the previous one and the last matching
column wins. -/
def findBaseColMain (cols : List Str) : Option Str :=
  cols.foldl (fun acc c => if matchesBase c then some c else acc) none

/-! ## Filter pipeline -/

/-- Case-insensitive substring test, pandas
`str.contains(needle, case=False, na=False)` for a literal needle. -/
def containsCI (needle hay : Str) : Bool := strLower needle <:+: strLower hay

/-- The sidebar status-filter choices. -/
inductive StatusChoice where
  | showAll
  | approvedOnly
  | notApprovedOnly
  | notInTimeOnly
deriving DecidableEq

/-- The sidebar status filter (src/app.py lines 405-415): rows kept by the
predicate of the selected outcome; `Show All`, or a missing status column,
passes every row through. -/
def statusFilterRows (rows : List Row) (cols : List Str) (checker_col : Str)
    (choice : StatusChoice) : List Row :=
  if choice = StatusChoice.showAll ∨ checker_col ∉ cols then rows
  else
    match choice with
    | StatusChoice.showAll => rows
    | StatusChoice.approvedOnly =>
      rows.filter (fun r => approvedPred (getCol r checker_col))
    | StatusChoice.notApprovedOnly =>
      rows.filter (fun r => notApprovedPred (getCol r checker_col))
    | StatusChoice.notInTimeOnly =>
      rows.filter (fun r => notInTimePred (getCol r checker_col))

/-- The free-text search (src/app.py line 474): keep rows where any cell of
the row contains the term case-insensitively. -/
def searchRows (rows : List Row) (term : Str) : List Row :=
  rows.filter (fun r => r.any (fun p => containsCI term p.2))

/-- The Bases-page Apply Filter (src/app.py lines 964-975): union of the
member lists of the selected canonical base names, then keep the rows whose
normalized Base Column value is in that union. -/
def baseGroupFilterRows (rows : List Row) (base_col : Str)
    (mapping : Mapping) (selected : List Str) : List Row :=
  rows.filter (fun r => normCell (getCol r base_col) ∈
    selected.foldl (fun acc b => acc ++ mapGet mapping b) [])

/-- The Combine-page filter (src/app.py lines 496-504): the two fragments are
upper-cased and stripped, and a row is kept when its raw Base Column value
case-insensitively contains either fragment. -/
def combineFilterRows (rows : List Row) (base_col : Str) (b1 b2 : Str) : List Row :=
  rows.filter (fun r =>
    containsCI (trim (strUpper b1)) (getCol r base_col) ||
    containsCI (trim (strUpper b2)) (getCol r base_col))

/-- The per-session state the filters interact with: the canonical (as loaded)
frame `original_df`, the working frame `df`, and the Base-Name Mapping. -/
structure AppState where
  canonical : DataFrame
  working : DataFrame
  mapping : Mapping
deriving DecidableEq

/-- One user-triggered filter action. -/
inductive FilterOp where
  | statusF (choice : StatusChoice)
  | searchF (term : Str)
  | baseGroupF (selected : List Str)
  | combineF (b1 b2 : Str)

/-- Apply one filter action to the session state, as the source does: the
status filter narrows the working frame, the base-group filter replaces the
working frame by a subset of the canonical frame, and search / combine
recompute the displayed subset from the canonical frame. -/
def applyFilterOp (checker_col base_col : Str) (st : AppState) :
    FilterOp → AppState
  | FilterOp.statusF choice =>
    { st with working := ⟨st.working.cols,
        statusFilterRows st.working.rows st.working.cols checker_col choice⟩ }
  | FilterOp.searchF term =>
    { st with working := ⟨st.canonical.cols, searchRows st.canonical.rows term⟩ }
  | FilterOp.baseGroupF selected =>
    { st with working := ⟨st.canonical.cols,
        baseGroupFilterRows st.canonical.rows base_col st.mapping selected⟩ }
  | FilterOp.combineF b1 b2 =>
    { st with working := ⟨st.canonical.cols,
        combineFilterRows st.canonical.rows base_col b1 b2⟩ }

/-! ## Definitions transcribed from the specification text

The following two definitions are written from the words of the spec (not from
the source); theorems below compare each with the corresponding source
definition. -/

/-- Spec text for the normalizer, section 4.1: trim and upper-case; if the
delimiter is found and splitting yields more than one segment, the result is
the last segment trimmed (absent if empty); otherwise the entire normalized
input (absent if empty). -/
def normalizeSpecC2 (s : Str) : Option Str :=
  if sepUS <:+: strUpper (trim s) ∧ (splitUS (strUpper (trim s))).length > 1 then
    if trim ((splitUS (strUpper (trim s))).getLastD []) = [] then none
    else some (trim ((splitUS (strUpper (trim s))).getLastD []))
  else if strUpper (trim s) = [] then none
  else some (strUpper (trim s))

/-- Spec text for the combine-two-bases filter: keep the rows whose raw Base
Column value case-insensitively contains either of the two user-supplied
fragments (no trimming of the fragments). -/
def combineFilterClaim (rows : List Row) (base_col : Str) (b1 b2 : Str) : List Row :=
  rows.filter (fun r =>
    containsCI b1 (getCol r base_col) || containsCI b2 (getCol r base_col))

/-- A one-row frame with a `Checker` column holding the given status cell,
used to state per-cell classifier facts through the aggregator. -/
def oneRowDF (t : Str) : DataFrame :=
  ⟨[lit "Checker"], [[(lit "Checker", t)]]⟩

/-- The concrete frame of the C4 example: base values 123-US-LY, 456-US-LY
and OTHER with statuses Approved, Not Approved and Approved. -/
def dfC4 : DataFrame :=
  ⟨[lit "Base", lit "Checker"],
   [[(lit "Base", lit "123-US-LY"), (lit "Checker", lit "Approved")],
    [(lit "Base", lit "456-US-LY"), (lit "Checker", lit "Not Approved")],
    [(lit "Base", lit "OTHER"), (lit "Checker", lit "Approved")]]⟩

/-- Membership of a raw value in some member list of the mapping. -/
def inGroup (m : Mapping) (x : Str) : Prop := ∃ p, p ∈ m ∧ x ∈ p.2

/-- One step of the load-time mapping construction. -/
def buildStep (m : Mapping) (bv : Str) : Mapping :=
  match extract_base_name bv with
  | some name => mapAppend m name bv
  | none => m

/-! ## Character and trimming lemmas -/

lemma chUpper_chUpper (n : Nat) : chUpper (chUpper n) = chUpper n := by
  unfold chUpper; split_ifs <;> omega

lemma chLower_chUpper (n : Nat) : chLower (chUpper n) = chLower n := by
  unfold chLower chUpper; split_ifs <;> omega

lemma isSpaceCh_chUpper (n : Nat) : isSpaceCh (chUpper n) = isSpaceCh n := by
  rw [Bool.eq_iff_iff]
  unfold isSpaceCh chUpper
  split_ifs with h
  · simp only [Bool.or_eq_true, decide_eq_true_eq]
    omega
  · exact Iff.rfl

lemma map_fix_iff (f : Nat → Nat) (l : Str) :
    l.map f = l ↔ ∀ c ∈ l, f c = c := by
  induction l with
  | nil => simp
  | cons a t ih => simp only [List.map_cons, List.cons.injEq, List.mem_cons, ih]
                   constructor
                   · rintro ⟨h1, h2⟩ c hc
                     rcases hc with rfl | hc
                     · exact h1
                     · exact h2 c hc
                   · intro h
                     exact ⟨h a (Or.inl rfl), fun c hc => h c (Or.inr hc)⟩

lemma strUpper_strUpper (s : Str) : strUpper (strUpper s) = strUpper s := by
  unfold strUpper
  rw [map_fix_iff]
  intro c hc
  obtain ⟨a, _, rfl⟩ := List.mem_map.mp hc
  exact chUpper_chUpper a

lemma strLower_strUpper (s : Str) : strLower (strUpper s) = strLower s := by
  unfold strLower strUpper
  rw [List.map_map]
  exact List.map_congr_left (fun a _ => chLower_chUpper a)

lemma strUpper_of_sublist {t s : Str} (h : List.Sublist t s) (hs : strUpper s = s) :
    strUpper t = t := by
  unfold strUpper at *
  rw [map_fix_iff] at hs ⊢
  exact fun c hc => hs c (h.subset hc)

lemma dropWhileIdem (p : Nat → Bool) (l : Str) :
    (l.dropWhile p).dropWhile p = l.dropWhile p := by
  induction l with
  | nil => rfl
  | cons a t ih =>
    by_cases h : p a <;> simp [List.dropWhile_cons, h, ih]

lemma trimL_trimL (s : Str) : trimL (trimL s) = trimL s := dropWhileIdem _ s

lemma trimR_trimR (s : Str) : trimR (trimR s) = trimR s := by
  unfold trimR
  rw [List.reverse_reverse, dropWhileIdem]

lemma trimL_head {c : Nat} {t : Str} (h : trimL (c :: t) = c :: t) :
    isSpaceCh c = false := by
  by_contra hc
  rw [Bool.not_eq_false] at hc
  unfold trimL at h
  rw [List.dropWhile_cons, if_pos hc] at h
  have := List.dropWhile_sublist (l := t) (p := isSpaceCh) |>.length_le
  rw [h] at this
  simp at this

lemma trimR_head {c : Nat} {t : Str} (hc : isSpaceCh c = false) :
    trimR (c :: t) = [] ∨ ∃ z, trimR (c :: t) = c :: z := by
  unfold trimR
  rw [List.reverse_cons, List.dropWhile_append]
  split
  · rw [List.dropWhile_cons, if_neg (by simp [hc])]
    right
    exact ⟨[], by simp⟩
  · right
    exact ⟨(t.reverse.dropWhile isSpaceCh).reverse, by simp⟩

lemma trimL_trimR_of_trimL {s : Str} (h : trimL s = s) :
    trimL (trimR s) = trimR s := by
  cases s with
  | nil => rfl
  | cons c t =>
    have hc := trimL_head h
    rcases trimR_head (t := t) hc with h0 | ⟨z, hz⟩
    · rw [h0]; rfl
    · rw [hz]
      unfold trimL
      rw [List.dropWhile_cons, if_neg (by simp [hc])]

lemma trim_trim (s : Str) : trim (trim s) = trim s := by
  unfold trim
  rw [trimL_trimR_of_trimL (trimL_trimL s), trimR_trimR]

lemma trimR_pre (y : Str) : trimR y <+: y := by
  unfold trimR
  conv_rhs => rw [← List.reverse_reverse y]
  exact List.reverse_prefix.mpr (List.dropWhile_suffix _)

lemma trimInfix (s : Str) : trim s <:+: s := by
  have h1 : trim s <+: trimL s := trimR_pre (trimL s)
  have h2 : trimL s <:+ s := List.dropWhile_suffix _
  exact h1.isInfix.trans h2.isInfix

lemma comp_isSpaceCh : (isSpaceCh ∘ chUpper) = isSpaceCh := funext isSpaceCh_chUpper

lemma trimL_strUpper (s : Str) : trimL (strUpper s) = strUpper (trimL s) := by
  unfold trimL strUpper
  rw [List.dropWhile_map, comp_isSpaceCh]

lemma trimR_strUpper (s : Str) : trimR (strUpper s) = strUpper (trimR s) := by
  unfold trimR strUpper
  rw [← List.map_reverse, List.dropWhile_map, comp_isSpaceCh, List.map_reverse]

lemma trim_strUpper (s : Str) : trim (strUpper s) = strUpper (trim s) := by
  unfold trim
  rw [trimL_strUpper, trimR_strUpper]

/-! ## Lemmas about the split on the delimiter -/

lemma sepUS_eq : sepUS = [45, 85, 83, 45] := rfl

lemma sepUS_pre_iff (c : Nat) (rest : Str) :
    sepUS <+: c :: rest ↔ c = 45 ∧ ∃ t, rest = 85 :: 83 :: 45 :: t := by
  constructor
  · rintro ⟨t, ht⟩
    rw [sepUS_eq] at ht
    simp only [List.cons_append, List.nil_append, List.cons.injEq] at ht
    exact ⟨ht.1.symm, t, ht.2.symm⟩
  · rintro ⟨rfl, t, rfl⟩
    exact ⟨t, rfl⟩

lemma splitUS_eq_cons (c : Nat) (rest : Str) (h : ¬ sepUS <+: c :: rest) :
    splitUS (c :: rest) =
      match splitUS rest with
      | [] => [[c]]
      | p :: ps => (c :: p) :: ps :=
  splitUS.eq_2 c rest
    (fun t hc hr => h ((sepUS_pre_iff c rest).mpr ⟨hc, t, hr⟩))

lemma splitUS_ne_nil (s : Str) : splitUS s ≠ [] := by
  cases s with
  | nil => simp [splitUS]
  | cons c rest =>
    by_cases h : sepUS <+: c :: rest
    · obtain ⟨hc, t, hr⟩ := (sepUS_pre_iff c rest).mp h
      subst hc; subst hr
      simp [splitUS]
    · rw [splitUS_eq_cons c rest h]
      cases hs : splitUS rest <;> simp

lemma splitUS_of_no_sep {s : Str} (h : ¬ sepUS <:+: s) : splitUS s = [s] := by
  induction s using splitUS.induct with
  | case1 rest ih =>
    exact absurd (List.IsPrefix.isInfix ⟨rest, rfl⟩) h
  | case2 c rest hne hnil ih =>
    exact absurd hnil (splitUS_ne_nil rest)
  | case3 c rest hne p ps hcons ih =>
    have hpre : ¬ sepUS <+: c :: rest := fun hp => by
      obtain ⟨hc, t, hr⟩ := (sepUS_pre_iff c rest).mp hp
      exact hne t hc hr
    have hrest : ¬ sepUS <:+: rest := fun hi => h (List.infix_cons_iff.mpr (Or.inr hi))
    rw [splitUS_eq_cons c rest hpre, hcons]
    have := ih hrest
    rw [hcons] at this
    simp only [List.cons.injEq] at this
    rw [this.1, this.2]
  | case4 => rfl

lemma splitUS_len_two {s : Str} (h : sepUS <:+: s) : 2 ≤ (splitUS s).length := by
  induction s using splitUS.induct with
  | case1 rest ih =>
    rw [splitUS.eq_1]
    have := List.length_pos.mpr (splitUS_ne_nil rest)
    simp only [List.length_cons]
    omega
  | case2 c rest hne hnil ih =>
    exact absurd hnil (splitUS_ne_nil rest)
  | case3 c rest hne p ps hcons ih =>
    have hpre : ¬ sepUS <+: c :: rest := fun hp => by
      obtain ⟨hc, t, hr⟩ := (sepUS_pre_iff c rest).mp hp
      exact hne t hc hr
    have hrest : sepUS <:+: rest := by
      rcases List.infix_cons_iff.mp h with hp | hi
      · exact absurd hp hpre
      · exact hi
    rw [splitUS_eq_cons c rest hpre, hcons]
    have := ih hrest
    rw [hcons] at this
    simpa using this
  | case4 =>
    rw [List.infix_nil] at h
    exact absurd h (by simp [sepUS_eq])

lemma getLastD_of_ne_nil {α : Type} {l : List α} (h : l ≠ []) (a b : α) :
    l.getLastD a = l.getLastD b := by
  cases l with
  | nil => exact absurd rfl h
  | cons x t => rw [List.getLastD_cons, List.getLastD_cons]

lemma mem_getLastD {α : Type} {l : List α} (h : l ≠ []) (d : α) :
    l.getLastD d ∈ l := by
  induction l generalizing d with
  | nil => exact absurd rfl h
  | cons x t ih =>
    rw [List.getLastD_cons]
    cases t with
    | nil => simp [List.getLastD_nil]
    | cons y u => exact List.mem_cons_of_mem x (ih (by simp) x)

lemma splitUS_last_no_sep (s : Str) :
    ¬ sepUS <:+: ((splitUS s).getLastD []) := by
  induction s using splitUS.induct with
  | case1 rest ih =>
    rw [splitUS.eq_1, List.getLastD_cons,
        getLastD_of_ne_nil (splitUS_ne_nil rest) [] []]
    exact ih
  | case2 c rest hne hnil ih =>
    exact absurd hnil (splitUS_ne_nil rest)
  | case3 c rest hne p ps hcons ih =>
    have hpre : ¬ sepUS <+: c :: rest := fun hp => by
      obtain ⟨hc, t, hr⟩ := (sepUS_pre_iff c rest).mp hp
      exact hne t hc hr
    rw [splitUS_eq_cons c rest hpre, hcons, List.getLastD_cons]
    cases ps with
    | nil =>
      rw [List.getLastD_nil]
      have hone : ¬ sepUS <:+: rest := by
        intro hi
        have := splitUS_len_two hi
        rw [hcons] at this
        simp at this
      have hrest := splitUS_of_no_sep hone
      rw [hcons] at hrest
      simp only [List.cons.injEq] at hrest
      rw [hrest.1]
      intro hinf
      rcases List.infix_cons_iff.mp hinf with hp | hi
      · exact hpre hp
      · exact hone hi
    | cons q qs =>
      rw [getLastD_of_ne_nil (by simp) (c :: p) q]
      rw [hcons, List.getLastD_cons] at ih
      exact ih
  | case4 =>
    simp only [splitUS, List.getLastD_cons, List.getLastD_nil]
    rw [List.infix_nil]
    simp [sepUS_eq]

lemma splitUS_sublist (s : Str) : ∀ p, p ∈ splitUS s → List.Sublist p s := by
  induction s using splitUS.induct with
  | case1 rest ih =>
    intro p hp
    rw [splitUS.eq_1] at hp
    rcases List.mem_cons.mp hp with rfl | hmem
    · exact List.nil_sublist _
    · exact ((((ih p hmem).cons 45).cons 83).cons 85).cons 45
  | case2 c rest hne hnil ih =>
    exact absurd hnil (splitUS_ne_nil rest)
  | case3 c rest hne q qs hcons ih =>
    intro p hp
    have hpre : ¬ sepUS <+: c :: rest := fun hx => by
      obtain ⟨hc, t, hr⟩ := (sepUS_pre_iff c rest).mp hx
      exact hne t hc hr
    have hsplit : splitUS (c :: rest) = (c :: q) :: qs := by
      rw [splitUS_eq_cons c rest hpre, hcons]
    rw [hsplit] at hp
    rcases List.mem_cons.mp hp with rfl | hmem
    · exact (ih q (by rw [hcons]; exact List.mem_cons_self q qs)).cons₂ c
    · exact (ih p (by rw [hcons]; exact List.mem_cons_of_mem q hmem)).cons c
  | case4 =>
    intro p hp
    simp only [splitUS, List.mem_singleton] at hp
    subst hp
    exact List.Sublist.refl []

/-! ## Claims about the normalizer -/

/-- C10: every non-absent output of `extract_base_name` is a non-empty,
trimmed, fully upper-cased text that contains no occurrence of the delimiter
`-US-`. -/
theorem spec_c10 (s r : Str) (h : extract_base_name s = some r) :
    r ≠ [] ∧ trim r = r ∧ strUpper r = r ∧ ¬ sepUS <:+: r := by
  unfold extract_base_name at h
  by_cases hA : s = [] ∨ s = lit "NAN" ∨ s = lit "NONE"
  · rw [if_pos hA] at h
    exact Option.noConfusion h
  · rw [if_neg hA] at h
    by_cases hi : sepUS <:+: strUpper (trim s)
    · have hlen := splitUS_len_two hi
      rw [if_pos hi, if_pos (by omega)] at h
      by_cases hemp : trim ((splitUS (strUpper (trim s))).getLastD []) = []
      · rw [if_pos hemp] at h
        exact Option.noConfusion h
      · rw [if_neg hemp] at h
        obtain rfl : trim ((splitUS (strUpper (trim s))).getLastD []) = r :=
          Option.some.inj h
        refine ⟨hemp, trim_trim _, ?_, ?_⟩
        · have hb : strUpper (strUpper (trim s)) = strUpper (trim s) :=
            strUpper_strUpper (trim s)
          have hmem := mem_getLastD (splitUS_ne_nil (strUpper (trim s))) ([] : Str)
          have hsub := splitUS_sublist (strUpper (trim s)) _ hmem
          have hlastU := strUpper_of_sublist hsub hb
          exact strUpper_of_sublist (trimInfix _).sublist hlastU
        · intro hbad
          exact splitUS_last_no_sep (strUpper (trim s))
            (hbad.trans (trimInfix _))
    · rw [if_neg hi] at h
      by_cases hb : strUpper (trim s) = []
      · rw [if_pos hb] at h
        exact Option.noConfusion h
      · rw [if_neg hb] at h
        obtain rfl : strUpper (trim s) = r := Option.some.inj h
        refine ⟨hb, ?_, strUpper_strUpper (trim s), hi⟩
        rw [trim_strUpper, trim_trim]

/-- C10 witness: the invariant instantiated at the input
`20221-US-LY`, whose canonical base name is `LY`. -/
theorem spec_c10_witness :
    lit "LY" ≠ [] ∧ trim (lit "LY") = lit "LY" ∧
    strUpper (lit "LY") = lit "LY" ∧ ¬ sepUS <:+: lit "LY" :=
  spec_c10 (lit "20221-US-LY") (lit "LY") (by decide)

lemma getCol_single (c t : Str) : getCol [(c, t)] c = t := by
  unfold getCol
  rw [List.find?_cons_of_pos _ (by simp)]

/-- C1: the classifier evaluates three independent substring predicates over
the lower-cased status text; `approved` additionally requires absence of
`not approved`.  On a one-row frame each bucket counts 1 exactly when its
predicate holds, so `Approved but not in time` lands in both the approved and
the not-in-time buckets, `Not Approved` only in not-approved, and a cell
matching no predicate counts toward the total only. -/
theorem spec_c1 :
    (∀ t : Str,
      calculate_statistics (oneRowDF t) (lit "Checker") =
        ⟨if approvedPred t then 1 else 0,
         if notApprovedPred t then 1 else 0,
         if notInTimePred t then 1 else 0, 1⟩ ∧
      (approvedPred t = true ↔
        (lit "approved" <:+: strLower t ∧ ¬ lit "not approved" <:+: strLower t)) ∧
      (notApprovedPred t = true ↔ lit "not approved" <:+: strLower t) ∧
      (notInTimePred t = true ↔ lit "not in time" <:+: strLower t)) ∧
    calculate_statistics (oneRowDF (lit "Approved but not in time"))
      (lit "Checker") = ⟨1, 0, 1, 1⟩ ∧
    calculate_statistics (oneRowDF (lit "Not Approved"))
      (lit "Checker") = ⟨0, 1, 0, 1⟩ ∧
    calculate_statistics (oneRowDF (lit "pending"))
      (lit "Checker") = ⟨0, 0, 0, 1⟩ := by
  refine ⟨?_, by decide, by decide, by decide⟩
  intro t
  refine ⟨?_, by simp [approvedPred], by simp [notApprovedPred],
    by simp [notInTimePred]⟩
  unfold calculate_statistics oneRowDF
  rw [if_neg (by simp), if_pos (by simp)]
  simp only [List.map_cons, List.map_nil, getCol_single, List.filter_cons,
    List.filter_nil, List.length_cons, List.length_nil]
  split_ifs <;> rfl

/-- C7: the aggregator returns the all-zero snapshot on an empty row
collection or a missing status column, and the percentage derivation is
guarded to zero when the total is zero, so no division-by-zero failure can
occur. -/
theorem spec_c7 :
    (∀ (data : DataFrame) (checker_col : Str), data.rows = [] →
      calculate_statistics data checker_col = zeroStats) ∧
    (∀ (data : DataFrame) (checker_col : Str), checker_col ∉ data.cols →
      calculate_statistics data checker_col = zeroStats) ∧
    (∀ count : Nat, pct count 0 = 0) ∧
    pct zeroStats.approved zeroStats.total = 0 ∧
    pct zeroStats.not_approved zeroStats.total = 0 ∧
    pct zeroStats.not_in_time zeroStats.total = 0 := by
  refine ⟨?_, ?_, ?_, by simp [pct, zeroStats], by simp [pct, zeroStats],
    by simp [pct, zeroStats]⟩
  · intro data cc h
    simp [calculate_statistics, h]
  · intro data cc h
    simp [calculate_statistics, h]
  · intro count
    simp [pct]

/-- C7 witness: the zero snapshot and the guarded percentage at concrete
inputs (an empty frame, and a division with zero total). -/
theorem spec_c7_witness :
    calculate_statistics ⟨[lit "Checker"], []⟩ (lit "Checker") = zeroStats ∧
    pct 5 0 = 0 :=
  ⟨spec_c7.1 ⟨[lit "Checker"], []⟩ (lit "Checker") rfl, spec_c7.2.2.1 5⟩

/-- C2: on every input that passes the absence check, `extract_base_name`
computes exactly the normalization described by the spec (trim and upper-case;
last segment of the split on the delimiter, trimmed, absent if empty;
otherwise the whole normalized input, absent if empty), and the four concrete
examples of the spec hold. -/
theorem spec_c2 :
    (∀ s, s ≠ [] → s ≠ lit "NAN" → s ≠ lit "NONE" →
      extract_base_name s = normalizeSpecC2 s) ∧
    extract_base_name (lit "20221-US-LY") = some (lit "LY") ∧
    extract_base_name (lit "PLAINVALUE") = some (lit "PLAINVALUE") ∧
    extract_base_name (lit "  us-US-zz  ") = some (lit "ZZ") ∧
    extract_base_name (lit "A-US-") = none := by
  refine ⟨?_, by decide, by decide, by decide, by decide⟩
  intro s h1 h2 h3
  unfold extract_base_name normalizeSpecC2
  rw [if_neg (by tauto)]
  by_cases hi : sepUS <:+: strUpper (trim s)
  · have hlen : (splitUS (strUpper (trim s))).length > 1 := splitUS_len_two hi
    rw [if_pos (c := sepUS <:+: strUpper (trim s) ∧
          (splitUS (strUpper (trim s))).length > 1) (And.intro hi hlen),
        if_pos hi, if_pos hlen]
  · rw [if_neg (c := sepUS <:+: strUpper (trim s) ∧
          (splitUS (strUpper (trim s))).length > 1) (fun hc => hi hc.1),
        if_neg hi]

/-- C2 witness: the refinement applied at the concrete input `20221-US-LY`. -/
theorem spec_c2_witness :
    extract_base_name (lit "20221-US-LY") = normalizeSpecC2 (lit "20221-US-LY") :=
  spec_c2.1 (lit "20221-US-LY") (by decide) (by decide) (by decide)

/-- C6 counterexample: the claim says a lower-case `nan` is treated as absent,
but `extract_base_name` performs the placeholder check on the raw input before
the defensive trim/upper-case, so `nan` is not absent: it yields `NAN`. -/
theorem spec_c6_counterexample :
    extract_base_name (lit "nan") = some (lit "NAN") ∧
    extract_base_name (lit "nan") ≠ none := by decide

/-- C6 amended: the normalizer returns absent for inputs that are empty or
exactly equal to the (already upper-cased) placeholder literals `NAN` or
`NONE`, and for whitespace-only inputs; the placeholder comparison happens
before the defensive re-normalization, so lower-case `nan` / `none` are NOT
treated as absent and are returned upper-cased instead. -/
theorem spec_c6_amended :
    (∀ s, (s = [] ∨ s = lit "NAN" ∨ s = lit "NONE") →
      extract_base_name s = none) ∧
    (∀ s, trim s = [] → extract_base_name s = none) ∧
    extract_base_name (lit "nan") = some (lit "NAN") ∧
    extract_base_name (lit "none") = some (lit "NONE") := by
  refine ⟨?_, ?_, by decide, by decide⟩
  · intro s h
    unfold extract_base_name
    rw [if_pos h]
  · intro s h
    unfold extract_base_name
    by_cases h1 : s = [] ∨ s = lit "NAN" ∨ s = lit "NONE"
    · rw [if_pos h1]
    · rw [if_neg h1, h]
      have hb : strUpper ([] : Str) = [] := rfl
      rw [hb, if_neg (by rw [List.infix_nil]; simp [sepUS_eq]), if_pos rfl]

/-- C6 witness: the amended absence rule applied at the upper-case placeholder
`NAN` and at a whitespace-only input. -/
theorem spec_c6_witness :
    extract_base_name (lit "NAN") = none ∧ extract_base_name (lit "  ") = none :=
  ⟨spec_c6_amended.1 (lit "NAN") (Or.inr (Or.inl rfl)),
   spec_c6_amended.2.1 (lit "  ") (by decide)⟩

/-! ## Claims about column resolution -/

lemma find?_eq_filter_head (p : Str → Bool) (l : List Str) :
    l.find? p = (l.filter p).head? := by
  induction l with
  | nil => rfl
  | cons a t ih =>
    by_cases h : p a
    · rw [List.find?_cons_of_pos _ h, List.filter_cons_of_pos h]
      rfl
    · rw [List.find?_cons_of_neg _ h, List.filter_cons_of_neg h, ih]

lemma foldl_pick_last (p : Str → Bool) (l : List Str) (a : Option Str) :
    l.foldl (fun acc c => if p c then some c else acc) a =
      match (l.filter p).getLast? with
      | some x => some x
      | none => a := by
  induction l using List.reverseRecOn with
  | nil => rfl
  | append_singleton t c ih =>
    rw [List.foldl_append, List.foldl_cons, List.foldl_nil, List.filter_append]
    by_cases h : p c
    · rw [if_pos h, List.filter_cons_of_pos h, List.filter_nil,
        List.getLast?_concat]
    · rw [if_neg h, ih, List.filter_cons_of_neg h, List.filter_nil,
        List.append_nil]

/-- C5 counterexample: with two matching columns `base` and `bases`, the
main-flow resolver (loop without `break`, src/app.py lines 396-400) resolves
the LAST matching column `bases`, not the earliest one `base` as the claim
states, while the load-time resolver resolves `base`. -/
theorem spec_c5_counterexample :
    findBaseColMain [lit "base", lit "bases"] = some (lit "bases") ∧
    findBaseColLoad [lit "base", lit "bases"] = some (lit "base") ∧
    lit "bases" ≠ lit "base" := by decide

/-- C5 amended: both resolvers match case-insensitively against the alias
set, but only the load-time resolver (loop with `break`) takes the first
matching column; the main-flow resolver (loop without `break`) takes the last
matching column.  The two agree whenever at most one column matches. -/
theorem spec_c5_amended :
    (∀ cols : List Str, findBaseColLoad cols = (cols.filter matchesBase).head?) ∧
    (∀ cols : List Str, findBaseColMain cols = (cols.filter matchesBase).getLast?) ∧
    (∀ cols : List Str, (cols.filter matchesBase).length ≤ 1 →
      findBaseColLoad cols = findBaseColMain cols) := by
  have hmain : ∀ cols : List Str,
      findBaseColMain cols = (cols.filter matchesBase).getLast? := by
    intro cols
    unfold findBaseColMain
    rw [foldl_pick_last]
    cases (cols.filter matchesBase).getLast? <;> rfl
  refine ⟨fun cols => find?_eq_filter_head matchesBase cols, hmain, ?_⟩
  intro cols hlen
  unfold findBaseColLoad
  rw [hmain, find?_eq_filter_head]
  cases hf : cols.filter matchesBase with
  | nil => rfl
  | cons x t =>
    cases t with
    | nil => rfl
    | cons y u =>
      rw [hf] at hlen
      simp at hlen

/-- C5 witness: the amended characterization applied to a concrete column
list with one matching column. -/
theorem spec_c5_witness :
    findBaseColLoad [lit "Name", lit "Base"] =
      findBaseColMain [lit "Name", lit "Base"] :=
  spec_c5_amended.2.2 [lit "Name", lit "Base"] (by decide)

/-! ## Claims about the filter pipeline -/

lemma containsCI_trim_upper (b v : Str) :
    containsCI (trim (strUpper b)) v = containsCI (trim b) v := by
  unfold containsCI
  rw [trim_strUpper, strLower_strUpper]

/-- C9 counterexample: with the fragment `MYWE ` (trailing blank) the code
strips the fragment and keeps the row whose base value is `XMYWE`, whereas
the row set described by the claim (raw containment of the fragments
themselves) is empty. -/
theorem spec_c9_counterexample :
    combineFilterRows [[(lit "Base", lit "XMYWE")]] (lit "Base")
      (lit "MYWE ") (lit "FISH") = [[(lit "Base", lit "XMYWE")]] ∧
    combineFilterClaim [[(lit "Base", lit "XMYWE")]] (lit "Base")
      (lit "MYWE ") (lit "FISH") = [] := by decide

/-- C9 amended: the combine filter keeps exactly the rows whose raw Base
Column value case-insensitively contains the TRIMMED first fragment or the
trimmed second fragment; it equals the union of the two single-fragment
substring filters on the trimmed fragments and is symmetric in fragment
order. -/
theorem spec_c9_amended :
    (∀ (rows : List Row) (base_col b1 b2 : Str),
      combineFilterRows rows base_col b1 b2 =
        combineFilterClaim rows base_col (trim b1) (trim b2)) ∧
    (∀ (rows : List Row) (base_col b1 b2 : Str),
      combineFilterRows rows base_col b1 b2 =
        combineFilterRows rows base_col b2 b1) ∧
    (∀ (rows : List Row) (base_col b1 b2 : Str) (r : Row),
      r ∈ combineFilterRows rows base_col b1 b2 ↔
        (r ∈ rows.filter (fun x => containsCI (trim b1) (getCol x base_col)) ∨
         r ∈ rows.filter (fun x => containsCI (trim b2) (getCol x base_col)))) := by
  refine ⟨?_, ?_, ?_⟩
  · intro rows bc b1 b2
    unfold combineFilterRows combineFilterClaim
    exact List.filter_congr (fun r _ => by
      rw [containsCI_trim_upper, containsCI_trim_upper])
  · intro rows bc b1 b2
    unfold combineFilterRows
    exact List.filter_congr (fun r _ => Bool.or_comm _ _)
  · intro rows bc b1 b2 r
    simp only [combineFilterRows, List.mem_filter, Bool.or_eq_true,
      containsCI_trim_upper]
    tauto

/-- C8: no filter operation changes the canonical frame or the Base-Name
Mapping, and after any sequence of filter operations the working frame's rows
are still a subset (sublist) of the canonical rows, so the canonical data
stays usable for further independent filtering. -/
theorem spec_c8 (checker_col base_col : Str) (st : AppState)
    (ops : List FilterOp)
    (hw : List.Sublist st.working.rows st.canonical.rows) :
    ((ops.foldl (applyFilterOp checker_col base_col) st).canonical =
      st.canonical) ∧
    ((ops.foldl (applyFilterOp checker_col base_col) st).mapping =
      st.mapping) ∧
    List.Sublist
      ((ops.foldl (applyFilterOp checker_col base_col) st).working.rows)
      st.canonical.rows := by
  induction ops generalizing st with
  | nil => exact ⟨rfl, rfl, hw⟩
  | cons op rest ih =>
    rw [List.foldl_cons]
    have hstep : (applyFilterOp checker_col base_col st op).canonical =
          st.canonical ∧
        (applyFilterOp checker_col base_col st op).mapping = st.mapping ∧
        List.Sublist (applyFilterOp checker_col base_col st op).working.rows
          st.canonical.rows := by
      cases op with
      | statusF choice =>
        refine ⟨rfl, rfl, ?_⟩
        have hsub : List.Sublist
            (statusFilterRows st.working.rows st.working.cols checker_col choice)
            st.working.rows := by
          unfold statusFilterRows
          split_ifs with h
          · exact List.Sublist.refl _
          · cases choice with
            | showAll => exact List.Sublist.refl _
            | approvedOnly => exact List.filter_sublist _
            | notApprovedOnly => exact List.filter_sublist _
            | notInTimeOnly => exact List.filter_sublist _
        exact hsub.trans hw
      | searchF term => exact ⟨rfl, rfl, List.filter_sublist _⟩
      | baseGroupF selected => exact ⟨rfl, rfl, List.filter_sublist _⟩
      | combineF b1 b2 => exact ⟨rfl, rfl, List.filter_sublist _⟩
    obtain ⟨h1, h2, h3⟩ := hstep
    have hmain := ih (applyFilterOp checker_col base_col st op)
      (by rw [h1]; exact h3)
    refine ⟨?_, ?_, ?_⟩
    · rw [hmain.1, h1]
    · rw [hmain.2.1, h2]
    · have h4 := hmain.2.2
      rw [h1] at h4
      exact h4

/-- C8 witness: a concrete canonical frame survives a status filter followed
by a combine filter with its canonical rows and mapping intact. -/
theorem spec_c8_witness :
    (([FilterOp.statusF StatusChoice.approvedOnly,
       FilterOp.combineF (lit "LY") (lit "ZZ")].foldl
        (applyFilterOp (lit "Checker") (lit "Base"))
        ⟨⟨[lit "Checker"], [[(lit "Checker", lit "approved")],
                            [(lit "Checker", lit "not approved")]]⟩,
         ⟨[lit "Checker"], [[(lit "Checker", lit "approved")],
                            [(lit "Checker", lit "not approved")]]⟩,
         []⟩).canonical =
      ⟨[lit "Checker"], [[(lit "Checker", lit "approved")],
                         [(lit "Checker", lit "not approved")]]⟩) ∧
    (([FilterOp.statusF StatusChoice.approvedOnly,
       FilterOp.combineF (lit "LY") (lit "ZZ")].foldl
        (applyFilterOp (lit "Checker") (lit "Base"))
        ⟨⟨[lit "Checker"], [[(lit "Checker", lit "approved")],
                            [(lit "Checker", lit "not approved")]]⟩,
         ⟨[lit "Checker"], [[(lit "Checker", lit "approved")],
                            [(lit "Checker", lit "not approved")]]⟩,
         []⟩).mapping = []) ∧
    List.Sublist
      (([FilterOp.statusF StatusChoice.approvedOnly,
         FilterOp.combineF (lit "LY") (lit "ZZ")].foldl
          (applyFilterOp (lit "Checker") (lit "Base"))
          ⟨⟨[lit "Checker"], [[(lit "Checker", lit "approved")],
                              [(lit "Checker", lit "not approved")]]⟩,
           ⟨[lit "Checker"], [[(lit "Checker", lit "approved")],
                              [(lit "Checker", lit "not approved")]]⟩,
           []⟩).working.rows)
      [[(lit "Checker", lit "approved")], [(lit "Checker", lit "not approved")]] :=
  spec_c8 (lit "Checker") (lit "Base")
    ⟨⟨[lit "Checker"], [[(lit "Checker", lit "approved")],
                        [(lit "Checker", lit "not approved")]]⟩,
     ⟨[lit "Checker"], [[(lit "Checker", lit "approved")],
                        [(lit "Checker", lit "not approved")]]⟩,
     []⟩
    [FilterOp.statusF StatusChoice.approvedOnly,
     FilterOp.combineF (lit "LY") (lit "ZZ")]
    (List.Sublist.refl _)

/-! ## Claims about grouped aggregation -/

lemma calc_base_eq (data : DataFrame) (base_name : Str) (m : Mapping)
    (bc checker_col : Str) :
    calculate_base_statistics data base_name m (some bc) checker_col =
      calculate_statistics
        ⟨data.cols,
         data.rows.filter
           (fun r => normCell (getCol r bc) ∈ mapGet m base_name)⟩
        checker_col := by
  simp only [calculate_base_statistics, calculate_statistics]
  by_cases h0 : data.rows.length = 0
  · have hnil : data.rows = [] := List.length_eq_zero.mp h0
    rw [if_pos h0]
    rw [hnil]
    rfl
  · rw [if_neg h0]
    by_cases hc : checker_col ∈ data.cols
    · rw [if_pos hc]
      by_cases hm : mapGet m base_name = []
      · rw [if_pos hm, hm]
        have hfil : data.rows.filter
            (fun r => normCell (getCol r bc) ∈ ([] : List Str)) = [] := by
          simp
        rw [hfil]
        rfl
      · rw [if_neg hm]
        by_cases hlen : (data.rows.filter
            (fun r => normCell (getCol r bc) ∈ mapGet m base_name)).length = 0
        · rw [if_pos hlen, if_pos hlen]
        · rw [if_neg hlen, if_neg hlen, if_pos hc]
    · rw [if_neg hc]
      by_cases hlen : (data.rows.filter
          (fun r => normCell (getCol r bc) ∈ mapGet m base_name)).length = 0
      · rw [if_pos hlen]
      · rw [if_neg hlen, if_neg hc]

/-- C4: grouped aggregation resolves the member list from the mapping,
filters the frame to the rows whose normalized Base Column value is a member,
and returns exactly the snapshot of the plain aggregator on those rows; it is
the zero snapshot when the base column is absent or the group has no members.
The concrete example from the spec (group `LY` of the three-row frame) yields
total 2, approved 1, not approved 1, not in time 0. -/
theorem spec_c4 :
    (∀ (data : DataFrame) (base_name : Str) (m : Mapping) (checker_col : Str),
      calculate_base_statistics data base_name m none checker_col = zeroStats) ∧
    (∀ (data : DataFrame) (base_name : Str) (m : Mapping) (bc checker_col : Str),
      calculate_base_statistics data base_name m (some bc) checker_col =
        calculate_statistics
          ⟨data.cols,
           data.rows.filter
             (fun r => normCell (getCol r bc) ∈ mapGet m base_name)⟩
          checker_col) ∧
    (∀ (data : DataFrame) (base_name : Str) (m : Mapping)
        (base_col : Option Str) (checker_col : Str),
      mapGet m base_name = [] →
      calculate_base_statistics data base_name m base_col checker_col =
        zeroStats) ∧
    calculate_base_statistics dfC4 (lit "LY")
      (build_base_name_mapping dfC4 (lit "Base"))
      (some (lit "Base")) (lit "Checker") = ⟨1, 1, 0, 2⟩ := by
  refine ⟨?_, calc_base_eq, ?_, by decide⟩
  · intro data n m cc
    unfold calculate_base_statistics
    split_ifs <;> rfl
  · intro data n m bcol cc hm
    cases bcol with
    | none =>
      unfold calculate_base_statistics
      split_ifs <;> rfl
    | some bc =>
      rw [calc_base_eq, hm]
      have hfil : data.rows.filter
          (fun r => normCell (getCol r bc) ∈ ([] : List Str)) = [] := by
        simp
      rw [hfil]
      rfl

/-- C4 witness: the zero-members clause applied to the empty mapping on the
concrete frame. -/
theorem spec_c4_witness :
    calculate_base_statistics dfC4 (lit "LY") [] (some (lit "Base"))
      (lit "Checker") = zeroStats :=
  spec_c4.2.2.1 dfC4 (lit "LY") [] (some (lit "Base")) (lit "Checker") rfl

/-! ## Claims about the load-time Base-Name Mapping -/

lemma build_eq_foldl (data : DataFrame) (base_col : Str) :
    build_base_name_mapping data base_col =
      (uniqueBaseValues data base_col).foldl buildStep [] := rfl

lemma buildStep_some {bv : Str} {k : Str} (m : Mapping)
    (hx : extract_base_name bv = some k) : buildStep m bv = mapAppend m k bv := by
  unfold buildStep
  rw [hx]

lemma buildStep_none {bv : Str} (m : Mapping)
    (hx : extract_base_name bv = none) : buildStep m bv = m := by
  unfold buildStep
  rw [hx]

lemma inGroup_nil (x : Str) : ¬ inGroup [] x := by
  rintro ⟨p, hp, hx⟩
  exact List.not_mem_nil p hp

lemma inGroup_cons (q : Str × List Str) (m : Mapping) (x : Str) :
    inGroup (q :: m) x ↔ x ∈ q.2 ∨ inGroup m x := by
  simp only [inGroup, List.mem_cons]
  constructor
  · rintro ⟨p, hp | hp, hx⟩
    · subst hp
      exact Or.inl hx
    · exact Or.inr ⟨p, hp, hx⟩
  · rintro (hx | ⟨p, hp, hx⟩)
    · exact ⟨q, Or.inl rfl, hx⟩
    · exact ⟨p, Or.inr hp, hx⟩

lemma inGroup_mapAppend (m : Mapping) (k v x : Str) :
    inGroup (mapAppend m k v) x ↔ inGroup m x ∨ x = v := by
  induction m with
  | nil =>
    unfold mapAppend
    rw [inGroup_cons]
    simp [inGroup_nil, List.mem_singleton]
  | cons q rest ih =>
    obtain ⟨k', vs⟩ := q
    unfold mapAppend
    by_cases hk : k' = k
    · rw [if_pos hk, inGroup_cons, inGroup_cons]
      simp only [List.mem_append, List.mem_singleton]
      tauto
    · rw [if_neg hk, inGroup_cons, inGroup_cons, ih]
      tauto

lemma keys_mapAppend (m : Mapping) (k v : Str) :
    (mapAppend m k v).map Prod.fst =
      if k ∈ m.map Prod.fst then m.map Prod.fst
      else m.map Prod.fst ++ [k] := by
  induction m with
  | nil => simp [mapAppend]
  | cons q rest ih =>
    obtain ⟨k', vs⟩ := q
    unfold mapAppend
    by_cases hk : k' = k
    · subst hk
      rw [if_pos rfl]
      simp [List.map_cons]
    · rw [if_neg hk]
      simp only [List.map_cons, ih]
      by_cases hmem : k ∈ rest.map Prod.fst
      · rw [if_pos hmem, if_pos (by simp [hmem])]
      · rw [if_neg hmem, if_neg (by
          simp only [List.mem_cons]
          rintro (h | h)
          · exact hk h.symm
          · exact hmem h)]
        simp

lemma mem_mapAppend (m : Mapping) (k v : Str) (p : Str × List Str)
    (hnd : (m.map Prod.fst).Nodup) (hp : p ∈ mapAppend m k v) :
    (p ∈ m ∧ p.1 ≠ k) ∨
    (∃ vs, (k, vs) ∈ m ∧ p = (k, vs ++ [v])) ∨
    (p = (k, [v]) ∧ k ∉ m.map Prod.fst) := by
  induction m with
  | nil =>
    unfold mapAppend at hp
    rw [List.mem_singleton] at hp
    exact Or.inr (Or.inr ⟨hp, by simp⟩)
  | cons q rest ih =>
    obtain ⟨k', vs'⟩ := q
    simp only [List.map_cons, List.nodup_cons] at hnd
    unfold mapAppend at hp
    by_cases hk : k' = k
    · subst hk
      rw [if_pos rfl, List.mem_cons] at hp
      rcases hp with rfl | hp
      · exact Or.inr (Or.inl ⟨vs', List.mem_cons_self _ _, rfl⟩)
      · refine Or.inl ⟨List.mem_cons_of_mem _ hp, ?_⟩
        intro hpk
        exact hnd.1 (by rw [← hpk]; exact List.mem_map_of_mem Prod.fst hp)
    · rw [if_neg hk, List.mem_cons] at hp
      rcases hp with rfl | hp
      · exact Or.inl ⟨List.mem_cons_self _ _, hk⟩
      · rcases ih hnd.2 hp with ⟨hpm, hpk⟩ | ⟨vs, hvs, rfl⟩ | ⟨rfl, hnk⟩
        · exact Or.inl ⟨List.mem_cons_of_mem _ hpm, hpk⟩
        · exact Or.inr (Or.inl ⟨vs, List.mem_cons_of_mem _ hvs, rfl⟩)
        · refine Or.inr (Or.inr ⟨rfl, ?_⟩)
          rw [List.map_cons, List.mem_cons]
          rintro (h | h)
          · exact hk h.symm
          · exact hnk h

lemma eq_of_mem_keys_nodup {m : Mapping} {p q : Str × List Str}
    (hnd : (m.map Prod.fst).Nodup) (hp : p ∈ m) (hq : q ∈ m)
    (hk : p.1 = q.1) : p = q := by
  induction m with
  | nil => exact absurd hp (List.not_mem_nil p)
  | cons r rest ih =>
    rw [List.map_cons, List.nodup_cons] at hnd
    rw [List.mem_cons] at hp hq
    rcases hp with rfl | hp
    · rcases hq with rfl | hq
      · rfl
      · exact absurd (hk ▸ List.mem_map_of_mem Prod.fst hq) hnd.1
    · rcases hq with rfl | hq
      · exact absurd (hk ▸ List.mem_map_of_mem Prod.fst hp) hnd.1
      · exact ih hnd.2 hp hq

lemma uniqueKeep_nodup_aux (l : List Str) :
    ∀ acc : List Str, acc.Nodup →
      (l.foldl (fun acc v => if v ∈ acc then acc else acc ++ [v]) acc).Nodup := by
  induction l with
  | nil => exact fun acc h => h
  | cons v t ih =>
    intro acc hacc
    rw [List.foldl_cons]
    by_cases hv : v ∈ acc
    · rw [if_pos hv]
      exact ih acc hacc
    · rw [if_neg hv]
      refine ih (acc ++ [v]) ?_
      rw [List.nodup_append]
      refine ⟨hacc, List.nodup_singleton v, ?_⟩
      intro a ha hav
      rw [List.mem_singleton] at hav
      subst hav
      exact hv ha

lemma uniqueKeep_nodup (l : List Str) : (uniqueKeep l).Nodup :=
  uniqueKeep_nodup_aux l [] List.nodup_nil

lemma uniqueBaseValues_nodup (data : DataFrame) (base_col : Str) :
    (uniqueBaseValues data base_col).Nodup :=
  (uniqueKeep_nodup _).filter _

lemma build_fold_inv (todo : List Str) :
    ∀ (m : Mapping) (done : List Str),
      (m.map Prod.fst).Nodup →
      (∀ p, p ∈ m → p.2 ≠ [] ∧ p.2.Nodup ∧
        (∀ v, v ∈ p.2 → extract_base_name v = some p.1) ∧
        List.Sublist p.2 done) →
      (∀ x, inGroup m x ↔ x ∈ done ∧ (extract_base_name x).isSome) →
      (∀ v, v ∈ todo → v ∉ done) →
      todo.Nodup →
      ((todo.foldl buildStep m).map Prod.fst).Nodup ∧
      (∀ p, p ∈ todo.foldl buildStep m → p.2 ≠ [] ∧ p.2.Nodup ∧
        (∀ v, v ∈ p.2 → extract_base_name v = some p.1) ∧
        List.Sublist p.2 (done ++ todo)) ∧
      (∀ x, inGroup (todo.foldl buildStep m) x ↔
        x ∈ done ++ todo ∧ (extract_base_name x).isSome) := by
  induction todo with
  | nil =>
    intro m done hnd hgood hmem hfresh hnodup
    refine ⟨hnd, ?_, ?_⟩
    · intro p hp
      obtain ⟨h1, h2, h3, h4⟩ := hgood p hp
      exact ⟨h1, h2, h3, by simpa using h4⟩
    · intro x
      rw [List.append_nil]
      exact hmem x
  | cons bv rest ih =>
    intro m done hnd hgood hmem hfresh hnodup
    rw [List.foldl_cons]
    rw [List.nodup_cons] at hnodup
    have hbv_done : bv ∉ done := hfresh bv (List.mem_cons_self _ _)
    cases hx : extract_base_name bv with
    | none =>
      rw [buildStep_none m hx]
      have hres := ih m (done ++ [bv]) hnd
        (fun p hp =>
          ⟨(hgood p hp).1, (hgood p hp).2.1, (hgood p hp).2.2.1,
           (hgood p hp).2.2.2.trans (List.sublist_append_left done [bv])⟩)
        (fun x => by
          rw [hmem x]
          constructor
          · rintro ⟨hxd, hxs⟩
            exact ⟨List.mem_append.mpr (Or.inl hxd), hxs⟩
          · rintro ⟨hxd, hxs⟩
            rcases List.mem_append.mp hxd with h | h
            · exact ⟨h, hxs⟩
            · rw [List.mem_singleton] at h
              subst h
              rw [hx] at hxs
              exact absurd hxs (by simp))
        (fun v hv => by
          rw [List.mem_append, List.mem_singleton]
          rintro (h | rfl)
          · exact hfresh v (List.mem_cons_of_mem _ hv) h
          · exact hnodup.1 hv)
        hnodup.2
      rw [List.append_cons]
      exact hres
    | some k =>
      rw [buildStep_some m hx]
      have hknd : ((mapAppend m k bv).map Prod.fst).Nodup := by
        rw [keys_mapAppend]
        by_cases hkin : k ∈ m.map Prod.fst
        · rw [if_pos hkin]
          exact hnd
        · rw [if_neg hkin, List.nodup_append]
          refine ⟨hnd, List.nodup_singleton k, ?_⟩
          intro a ha hak
          rw [List.mem_singleton] at hak
          subst hak
          exact hkin ha
      have hgood' : ∀ p, p ∈ mapAppend m k bv → p.2 ≠ [] ∧ p.2.Nodup ∧
          (∀ v, v ∈ p.2 → extract_base_name v = some p.1) ∧
          List.Sublist p.2 (done ++ [bv]) := by
        intro p hp
        rcases mem_mapAppend m k bv p hnd hp with
          ⟨hpm, _⟩ | ⟨vs, hvs, rfl⟩ | ⟨rfl, _⟩
        · obtain ⟨h1, h2, h3, h4⟩ := hgood p hpm
          exact ⟨h1, h2, h3, h4.trans (List.sublist_append_left done [bv])⟩
        · obtain ⟨h1, h2, h3, h4⟩ := hgood (k, vs) hvs
          refine ⟨by simp, ?_, ?_, ?_⟩
          · rw [List.nodup_append]
            refine ⟨h2, List.nodup_singleton bv, ?_⟩
            intro a ha hav
            rw [List.mem_singleton] at hav
            subst hav
            exact hbv_done (h4.subset ha)
          · intro v hv
            rcases List.mem_append.mp hv with h | h
            · exact h3 v h
            · rw [List.mem_singleton] at h
              subst h
              exact hx
          · exact h4.append (List.Sublist.refl [bv])
        · refine ⟨by simp, List.nodup_singleton bv, ?_,
            List.sublist_append_right done [bv]⟩
          intro v hv
          rw [List.mem_singleton] at hv
          subst hv
          exact hx
      have hmem' : ∀ x, inGroup (mapAppend m k bv) x ↔
          x ∈ done ++ [bv] ∧ (extract_base_name x).isSome := by
        intro x
        rw [inGroup_mapAppend, hmem x, List.mem_append, List.mem_singleton]
        constructor
        · rintro (⟨hxd, hxs⟩ | rfl)
          · exact ⟨Or.inl hxd, hxs⟩
          · exact ⟨Or.inr rfl, by rw [hx]; rfl⟩
        · rintro ⟨hxd | rfl, hxs⟩
          · exact Or.inl ⟨hxd, hxs⟩
          · exact Or.inr rfl
      have hres := ih (mapAppend m k bv) (done ++ [bv]) hknd hgood' hmem'
        (fun v hv => by
          rw [List.mem_append, List.mem_singleton]
          rintro (h | rfl)
          · exact hfresh v (List.mem_cons_of_mem _ hv) h
          · exact hnodup.1 hv)
        hnodup.2
      rw [List.append_cons]
      exact hres

/-- C3 counterexample: the raw value `A-US-` survives the exclusion rules
(non-empty, not `NAN`, not `NONE`) but its canonical base name is absent
(empty trailing segment), so it appears in NO group's member list: the
built mapping is empty although the non-excluded value list is not. -/
theorem spec_c3_counterexample :
    build_base_name_mapping ⟨[lit "Base"], [[(lit "Base", lit "A-US-")]]⟩
      (lit "Base") = [] ∧
    uniqueBaseValues ⟨[lit "Base"], [[(lit "Base", lit "A-US-")]]⟩
      (lit "Base") = [lit "A-US-"] := by decide

/-- C3 amended: the Base-Name Mapping partitions the non-excluded raw values
WHOSE CANONICAL BASE NAME IS NON-ABSENT (a value such as `A-US-`, whose
normalizer output is absent, appears in no member list): every member list is
non-empty and duplicate-free and lists only values that normalize to its key,
member lists are sublists of the first-seen value order, a value is in some
member list exactly when it is a non-excluded distinct value with non-absent
canonical name, the keys are pairwise distinct, and each such value lies in
exactly one group. -/
theorem spec_c3_amended (data : DataFrame) (base_col : Str) :
    (∀ p, p ∈ build_base_name_mapping data base_col → p.2 ≠ [] ∧ p.2.Nodup ∧
      (∀ v, v ∈ p.2 → extract_base_name v = some p.1) ∧
      List.Sublist p.2 (uniqueBaseValues data base_col)) ∧
    (∀ x, inGroup (build_base_name_mapping data base_col) x ↔
      x ∈ uniqueBaseValues data base_col ∧ (extract_base_name x).isSome) ∧
    ((build_base_name_mapping data base_col).map Prod.fst).Nodup ∧
    (∀ x, x ∈ uniqueBaseValues data base_col → (extract_base_name x).isSome →
      ∃ p, p ∈ build_base_name_mapping data base_col ∧ x ∈ p.2 ∧
        ∀ q, q ∈ build_base_name_mapping data base_col → x ∈ q.2 → q = p) := by
  have hinv := build_fold_inv (uniqueBaseValues data base_col) [] []
    List.nodup_nil
    (fun p hp => absurd hp (List.not_mem_nil p))
    (fun x => by
      constructor
      · intro h
        exact absurd h (inGroup_nil x)
      · rintro ⟨h, _⟩
        exact absurd h (List.not_mem_nil x))
    (fun v _ hv => List.not_mem_nil v hv)
    (uniqueBaseValues_nodup data base_col)
  rw [List.nil_append] at hinv
  rw [build_eq_foldl]
  obtain ⟨hknd, hgood, hmem⟩ := hinv
  refine ⟨hgood, hmem, hknd, ?_⟩
  intro x hx hsome
  obtain ⟨p, hp, hxp⟩ := (hmem x).mpr ⟨hx, hsome⟩
  refine ⟨p, hp, hxp, ?_⟩
  intro q hq hxq
  have h1 : extract_base_name x = some q.1 := (hgood q hq).2.2.1 x hxq
  have h2 : extract_base_name x = some p.1 := (hgood p hp).2.2.1 x hxp
  have hkeq : q.1 = p.1 := Option.some.inj (h1.symm.trans h2)
  exact eq_of_mem_keys_nodup hknd hq hp hkeq

/-- C3 witness: on a concrete two-row frame the value `1-US-AA` lies in
exactly one group of the built mapping. -/
theorem spec_c3_witness :
    ∃ p, p ∈ build_base_name_mapping
        ⟨[lit "Base"], [[(lit "Base", lit "1-US-AA")], [(lit "Base", lit "X")]]⟩
        (lit "Base") ∧ lit "1-US-AA" ∈ p.2 ∧
      ∀ q, q ∈ build_base_name_mapping
          ⟨[lit "Base"], [[(lit "Base", lit "1-US-AA")], [(lit "Base", lit "X")]]⟩
          (lit "Base") → lit "1-US-AA" ∈ q.2 → q = p :=
  (spec_c3_amended
    ⟨[lit "Base"], [[(lit "Base", lit "1-US-AA")], [(lit "Base", lit "X")]]⟩
    (lit "Base")).2.2.2 (lit "1-US-AA") (by decide) (by decide)
